import Mathlib

/-!
Verification of `read_events` (src/inotifymodule.c).

A shallow embedding of the read path of the inotify extension module:
buffer sizing (lines 105-118), the error check after `read` (lines 129-137)
and the decode loop over the kernel's event records (lines 139-169).

Modelling conventions.
* C machine integers are `Nat` / `Int` with explicit reduction modulo `2^32`.
* The bytes addressable from `buf` are a finite `List Byte`; the first `len`
  of them are the ones `read` filled in, whatever follows is foreign memory.
  A load at an index outside the list is a memory fault.
* Pointers are offsets from `buf` (natural numbers: pointer arithmetic is
  64 bit wide and does not wrap on the offsets that occur).
* Every load the decode loop performs is recorded, so that statements on
  "which bytes are read" can be made.
* The strict UTF-8 check done by `PyUnicode_FromString`, the byte order and
  the two `errno` constants belong to the platform and are parameters.
* `malloc` and the allocation of Python objects are taken to succeed, and
  argument parsing is taken to have succeeded.
* `Result` is what the body of the C function does. What the Python caller
  observes is `CallOutcome`: the interpreter checks every result of a C
  function against the error indicator before handing it to the caller.
-/

namespace Inotify

/-- One `char` of the read buffer. -/
abbrev Byte := Fin 256

/-- Value of `sizeof(struct inotify_event)` on Linux: `int wd; uint32_t mask;
uint32_t cookie; uint32_t len; char name[];`. -/
def sizeof_inotify_event : Nat := 16

/-- Value of `NAME_MAX` from `<limits.h>` on Linux. -/
def NAME_MAX : Nat := 255

/-- Modulus of `unsigned int` (`uint`, `uint32_t`). -/
def UINT_MOD : Nat := 4294967296

/-- Platform parameters the C code depends on but does not define. -/
structure Target where
  /-- Native byte order of the machine. -/
  bigEndian : Bool
  /-- Value of the `EAGAIN` constant. -/
  EAGAIN : Int
  /-- Value of the `EWOULDBLOCK` constant. -/
  EWOULDBLOCK : Int
  /-- Whether `PyUnicode_FromString` accepts the bytes of a C string (strict UTF-8). -/
  utf8 : List Byte → Bool

/-- The `Event` struct sequence built by one loop iteration (lines 146-162).
`name = none` is a slot holding `NULL`: `PyUnicode_FromString` failed and its
result was stored unchecked. A text value is represented by its bytes. -/
structure ParsedEvent where
  wd : Int
  mask : Nat
  cookie : Nat
  len : Nat
  name : Option (List Byte)
deriving DecidableEq, Repr

/-- The four header fields of a `struct inotify_event`. -/
structure Header where
  wd : Int
  mask : Nat
  cookie : Nat
  len : Nat
deriving DecidableEq, Repr

/-- Value of four consecutive bytes read as a native-endian `uint32_t`. -/
def u32 (be : Bool) (b0 b1 b2 b3 : Byte) : Nat :=
  if be then b3.val + 256 * b2.val + 65536 * b1.val + 16777216 * b0.val
  else b0.val + 256 * b1.val + 65536 * b2.val + 16777216 * b3.val

/-- Reinterpretation of a 32-bit pattern as `int` (two's complement). -/
def toInt32 (u : Nat) : Int :=
  if u < 2147483648 then (u : Int) else (u : Int) - 4294967296

/-- A `uint32_t` at the head of a byte sequence. -/
def u32Head (be : Bool) : List Byte → Option Nat
  | b0 :: b1 :: b2 :: b3 :: _ => some (u32 be b0 b1 b2 b3)
  | _ => none

/-- Load of a `uint32_t` at offset `p` from `buf`; `none` is a memory fault. -/
def loadU32 (be : Bool) (mem : List Byte) (p : Nat) : Option Nat :=
  u32Head be (mem.drop p)

/-- The loads `event->wd`, `event->mask`, `event->cookie`, `event->len` with
`event = (const struct inotify_event*) ptr` (lines 144-155). -/
def loadHeader (be : Bool) (mem : List Byte) (off : Nat) : Option Header :=
  match loadU32 be mem off, loadU32 be mem (off + 4),
        loadU32 be mem (off + 8), loadU32 be mem (off + 12) with
  | some wd, some mask, some cookie, some len => some ⟨toInt32 wd, mask, cookie, len⟩
  | _, _, _, _ => none

/-- The C string at the head of a byte sequence, as `strlen` inside
`PyUnicode_FromString` finds it: the bytes before the first NUL. `none` when
the scan leaves the addressable bytes without meeting a NUL. -/
def cstring : List Byte → Option (List Byte)
  | [] => none
  | b :: rest => if b = 0 then some [] else (cstring rest).map (fun s => b :: s)

/-- Effect of one iteration of the decode loop. -/
structure Step where
  /-- The struct sequence appended to `event_list`. -/
  event : ParsedEvent
  /-- Offsets from `buf` of the bytes loaded by the iteration. -/
  reads : List Nat
  /-- Value of `ptr - buf` after the increment of the `for` statement. -/
  next : Nat
deriving DecidableEq, Repr

/-- Body and increment of the `for` loop (lines 142-164) at `ptr = buf + off`.
`none` is a memory fault. -/
def decodeOne (t : Target) (mem : List Byte) (off : Nat) : Option Step :=
  match loadHeader t.bigEndian mem off with
  | none => none
  | some h =>
    if h.len ≠ 0 then
      match cstring (mem.drop (off + sizeof_inotify_event)) with
      | none => none
      | some s =>
        some ⟨⟨h.wd, h.mask, h.cookie, h.len, if t.utf8 s then some s else none⟩,
              List.range' off sizeof_inotify_event
                ++ List.range' (off + sizeof_inotify_event) (s.length + 1),
              off + (sizeof_inotify_event + h.len)⟩
    else
      some ⟨⟨h.wd, h.mask, h.cookie, h.len, some []⟩,
            List.range' off sizeof_inotify_event,
            off + (sizeof_inotify_event + h.len)⟩

/-- What a run of the body of `read_events` (or of its decode loop) ends in. -/
inductive Result where
  /-- `PyErr_SetFromErrno(PyExc_OSError); return NULL;` -/
  | osError (errno : Int)
  /-- A load outside the addressable bytes. -/
  | fault
  /-- The iteration budget of the model was used up before the loop ended. -/
  | outOfFuel
  /-- The statement `return event_list;` with the list built so far, and the offsets of all
  bytes loaded from the buffer. The error indicator is then set exactly when a name slot of
  the list is empty (see `pending_error`). -/
  | ok (events : List ParsedEvent) (reads : List Nat)
deriving DecidableEq, Repr

/-- Adds the effect of an iteration in front of the outcome of the remaining iterations. -/
def Result.push (s : Step) : Result → Result
  | .ok events reads => .ok (s.event :: events) (s.reads ++ reads)
  | r => r

/-- The loop `for (char* ptr = buf; ptr < buf + len; ptr += sizeof(struct inotify_event)
+ event->len)` (lines 141-165), started at `ptr = buf + off`, with an iteration budget. -/
def decodeLoop (t : Target) (mem : List Byte) (len : Nat) : Nat → Nat → Result
  | 0, off => if off < len then .outOfFuel else .ok [] []
  | fuel + 1, off =>
    if off < len then
      match decodeOne t mem off with
      | none => .fault
      | some s => (decodeLoop t mem len fuel s.next).push s
    else .ok [] []

/-- Lines 134-169: the part of `read_events` after the error check, for a `read` that
returned `len`. Every iteration advances by at least 16 bytes, so a budget of `len`
iterations is never used up (see `decodeLoop_fuel_irrelevant`). -/
def decode_events (t : Target) (mem : List Byte) (len : Int) : Result :=
  if len ≤ 0 then .ok [] [] else decodeLoop t mem len.toNat len.toNat 0

/-- Conversion done by the `I` format unit of `PyArg_ParseTupleAndKeywords`: a Python
integer is stored into a C `unsigned int` without overflow checking. -/
def parse_I (n : Int) : Nat := (n % (UINT_MOD : Int)).toNat

/-- Value of `uint max_bytes` after line 102: the initial value 0 when the optional argument
is absent, else the converted argument. -/
def parsed_max_bytes (max_bytes_arg : Option Int) : Nat :=
  match max_bytes_arg with
  | none => 0
  | some n => parse_I n

/-- Lines 105-118: the size passed to `malloc` and `read`, from the value the `FIONREAD`
ioctl left in `int bytes_available` and the value of `uint max_bytes`. -/
def buf_size (bytes_available : Int) (max_bytes : Nat) : Nat :=
  let size : Nat := 1
  let size : Nat :=
    if bytes_available ≠ 0 then
      (size * (bytes_available % (UINT_MOD : Int)).toNat) % UINT_MOD
    else
      (size * (10 * (sizeof_inotify_event + NAME_MAX + 1))) % UINT_MOD
  let max_bytes : Nat := if (max_bytes : Int) < 0 then 0 else max_bytes
  if max_bytes ≠ 0 ∧ size > max_bytes then max_bytes else size

/-- What the `read` system call did: its return value, the `errno` it left, and the bytes
addressable from `buf` afterwards. -/
structure ReadOutcome where
  len : Int
  errno : Int
  mem : List Byte

/-- The function `read_events` (lines 94-170) after successful argument parsing.
`max_bytes_arg` is the optional Python argument, `bytes_available` the value left by the
ioctl, `sysread` the behaviour of `read(fd, buf, buf_size)` as a function of the size. -/
def read_events (t : Target) (max_bytes_arg : Option Int) (bytes_available : Int)
    (sysread : Nat → ReadOutcome) : Result :=
  let max_bytes : Nat := parsed_max_bytes max_bytes_arg
  let r := sysread (buf_size bytes_available max_bytes)
  if r.len = -1 ∧ r.errno ≠ t.EAGAIN ∧ r.errno ≠ t.EWOULDBLOCK then .osError r.errno
  else decode_events t r.mem r.len

/-! ## The call as the Python caller observes it -/

/-- Python exceptions a call of `read_events` can end in. -/
inductive PyExc where
  /-- `OSError` carrying an `errno`. -/
  | osError (errno : Int)
  /-- `UnicodeDecodeError`, set by `PyUnicode_FromString` on bytes that are not valid text. -/
  | unicodeDecodeError
  /-- `SystemError` raised by the interpreter, chained to the exception that was pending. -/
  | systemError (cause : PyExc)
deriving DecidableEq, Repr

/-- The error indicator when `return event_list` (line 169) is reached. Each failing
`PyUnicode_FromString` (line 159) sets `UnicodeDecodeError` and leaves `NULL` in the name
slot; no statement of the loop tests or clears the indicator. -/
def pending_error (events : List ParsedEvent) : Option PyExc :=
  if events.any (fun e => e.name.isNone) then some .unicodeDecodeError else none

/-- What the Python caller of `read_events` observes. -/
inductive CallOutcome where
  /-- The call raises an exception. -/
  | raised (e : PyExc)
  /-- The call evaluates to the list of events. -/
  | returned (events : List ParsedEvent)
  /-- The process took a memory fault. -/
  | crashed
  /-- The iteration budget of the model was used up. -/
  | outOfFuel
deriving DecidableEq, Repr

/-- A call of `read_events` from Python: the body of the C function, then the interpreter's
check of its result. A `NULL` result raises the exception that was set. A list returned
while the error indicator is set is discarded, and `SystemError` ("returned a result with an
exception set") is raised with the pending exception as its cause. -/
def call_read_events (t : Target) (max_bytes_arg : Option Int) (bytes_available : Int)
    (sysread : Nat → ReadOutcome) : CallOutcome :=
  match read_events t max_bytes_arg bytes_available sysread with
  | .osError errno => .raised (.osError errno)
  | .fault => .crashed
  | .outOfFuel => .outOfFuel
  | .ok events _ =>
    match pending_error events with
    | some e => .raised (.systemError e)
    | none => .returned events

/-! ## The on-wire layout, for statements on synthetically encoded buffers -/

/-- The four bytes of a `uint32_t` in native byte order. -/
def encU32 (be : Bool) (n : Nat) : List Byte :=
  let b0 : Byte := Fin.ofNat (n % 256)
  let b1 : Byte := Fin.ofNat (n / 256 % 256)
  let b2 : Byte := Fin.ofNat (n / 65536 % 256)
  let b3 : Byte := Fin.ofNat (n / 16777216 % 256)
  if be then [b3, b2, b1, b0] else [b0, b1, b2, b3]

/-- A source event record: the header values, the name, and the bytes that fill the name
field after the name's terminator. -/
structure Rec where
  wd : Int
  mask : Nat
  cookie : Nat
  name_length : Nat
  name : List Byte
  pad : List Byte
deriving DecidableEq, Repr

/-- The name field of a record: nothing when `name_length = 0`, else the name, its NUL
terminator and the filling bytes. -/
def Rec.nameField (r : Rec) : List Byte :=
  if r.name_length = 0 then [] else r.name ++ (0 : Byte) :: r.pad

/-- On-wire encoding of a record: 16-byte header, then the name field. -/
def Rec.encode (be : Bool) (r : Rec) : List Byte :=
  encU32 be (r.wd % 4294967296).toNat ++ (encU32 be r.mask ++ (encU32 be r.cookie
    ++ (encU32 be r.name_length ++ r.nameField)))

/-- The record is one the layout can hold: the header values fit their fields, the name has
no NUL byte, and the name field is exactly `name_length` bytes long. -/
structure Rec.Wf (r : Rec) : Prop where
  wd_lo : -2147483648 ≤ r.wd
  wd_hi : r.wd < 2147483648
  mask_lt : r.mask < 4294967296
  cookie_lt : r.cookie < 4294967296
  len_lt : r.name_length < 4294967296
  no_nul : ∀ b ∈ r.name, b ≠ 0
  field_len : r.nameField.length = r.name_length
  empty_name : r.name_length = 0 → r.name = []

/-- Concatenation of the encodings of a list of records. -/
def encodeAll (be : Bool) : List Rec → List Byte
  | [] => []
  | r :: rs => r.encode be ++ encodeAll be rs

/-- The event a record decodes to: the name is a text value when `PyUnicode_FromString`
accepts it and an empty slot otherwise. -/
def Rec.toEvent (t : Target) (r : Rec) : ParsedEvent :=
  ⟨r.wd, r.mask, r.cookie, r.name_length,
    if r.name_length = 0 then some [] else if t.utf8 r.name then some r.name else none⟩

/-! ## A concrete platform: x86-64 Linux with CPython's strict UTF-8 decoder -/

/-- Continuation byte `0x80..0xBF`. -/
def isCont (b : Byte) : Bool := decide (128 ≤ b.val) && decide (b.val < 192)

/-- Strict UTF-8 well-formedness (no overlong forms, no surrogates, at most U+10FFFF). -/
def utf8Valid : List Byte → Bool
  | [] => true
  | b0 :: rest =>
    if b0.val < 128 then utf8Valid rest
    else if 194 ≤ b0.val ∧ b0.val < 224 then
      match rest with
      | b1 :: rest1 => isCont b1 && utf8Valid rest1
      | _ => false
    else if 224 ≤ b0.val ∧ b0.val < 240 then
      match rest with
      | b1 :: b2 :: rest2 =>
        isCont b1 && isCont b2 && (decide (b0.val ≠ 224) || decide (160 ≤ b1.val))
          && (decide (b0.val ≠ 237) || decide (b1.val < 160)) && utf8Valid rest2
      | _ => false
    else if 240 ≤ b0.val ∧ b0.val < 245 then
      match rest with
      | b1 :: b2 :: b3 :: rest3 =>
        isCont b1 && isCont b2 && isCont b3 && (decide (b0.val ≠ 240) || decide (144 ≤ b1.val))
          && (decide (b0.val ≠ 244) || decide (b1.val < 144)) && utf8Valid rest3
      | _ => false
    else false

/-- Little-endian Linux: `EAGAIN = EWOULDBLOCK = 11`. -/
def linux : Target := ⟨false, 11, 11, utf8Valid⟩

/-- A big-endian platform on which the two would-block constants differ. -/
def bigTarget : Target := ⟨true, 11, 246, utf8Valid⟩

/-! ## Buffers made of complete records -/

/-- From offset `off` on, the `len` bytes of the buffer are tiled by complete records: every
header and every name field lies inside the first `len` bytes, and every non-empty name
field holds a NUL terminator. This is what the kernel delivers on an inotify descriptor. -/
inductive Framed (be : Bool) (mem : List Byte) (len : Nat) : Nat → Prop where
  | done : Framed be mem len len
  | record (off : Nat) (h : Header) :
      loadHeader be mem off = some h →
      off + (16 + h.len) ≤ len →
      (h.len ≠ 0 → ∃ j, j < h.len ∧ mem[off + 16 + j]? = some (0 : Byte)) →
      Framed be mem len (off + (16 + h.len)) →
      Framed be mem len off

/-! ## Sample data -/

/-- A create event (`IN_CREATE = 0x100`) for the name `a.txt`, in a name field of 16 bytes
filled with NULs, as the kernel writes it. -/
def sampleCreate : Rec := ⟨-1, 256, 0, 16, [97, 46, 116, 120, 116], [0, 0, 0, 0, 0, 0, 0, 0, 0, 0]⟩

/-- An event without name (`IN_DELETE_SELF = 0x400`). -/
def sampleSelf : Rec := ⟨3, 1024, 0, 0, [], []⟩

/-- A record whose 2-byte name field is the byte `0xFF` and a NUL, followed by the
encoding of `sampleCreate`. -/
def badNameBuffer : List Byte :=
  [1, 0, 0, 0, 0, 1, 0, 0, 0, 0, 0, 0, 2, 0, 0, 0, 255, 0] ++ sampleCreate.encode false

/-- A buffer of which `read` filled 8 bytes, the first half of a header; the eight bytes
after them are foreign memory. -/
def truncatedBuffer : List Byte := [3, 0, 0, 0, 0, 4, 0, 0, 0, 0, 0, 0, 0, 0, 0, 0]

/-- A record whose 1-byte name field holds `a` and no terminator, followed by the encoding
of `sampleSelf`: 33 bytes. -/
def unterminatedBuffer : List Byte :=
  [1, 0, 0, 0, 0, 1, 0, 0, 0, 0, 0, 0, 1, 0, 0, 0, 97] ++ sampleSelf.encode false

/-- A kernel with one 32-byte event (`sampleCreate`) pending on the descriptor: `read` fails
with `EINVAL = 22` when the buffer cannot hold the event, else delivers it. -/
def pendingCreate (size : Nat) : ReadOutcome :=
  if size < 32 then ⟨-1, 22, []⟩ else ⟨32, 0, sampleCreate.encode false⟩

/-! ## Byte-level lemmas -/

theorem u32_lt (be : Bool) (b0 b1 b2 b3 : Byte) : u32 be b0 b1 b2 b3 < 4294967296 := by
  have h0 := b0.isLt; have h1 := b1.isLt; have h2 := b2.isLt; have h3 := b3.isLt
  unfold u32; split <;> omega

theorem u32Head_encU32 (be : Bool) (n : Nat) (rest : List Byte) (hn : n < 4294967296) :
    u32Head be (encU32 be n ++ rest) = some n := by
  cases be <;> simp [encU32, u32Head, u32, Fin.ofNat] <;> omega

theorem toInt32_wrap (wd : Int) (lo : -2147483648 ≤ wd) (hi : wd < 2147483648) :
    toInt32 (wd % 4294967296).toNat = wd := by
  unfold toInt32
  split <;> omega

theorem wrap_lt (wd : Int) : (wd % 4294967296).toNat < 4294967296 := by omega

theorem encU32_length (be : Bool) (n : Nat) : (encU32 be n).length = 4 := by
  cases be <;> simp [encU32]

theorem cstring_append (s rest : List Byte) (hs : ∀ b ∈ s, b ≠ 0) :
    cstring (s ++ (0 : Byte) :: rest) = some s := by
  induction s with
  | nil => simp [cstring]
  | cons b s ih =>
    have hb : b ≠ 0 := hs b (by simp)
    have ih2 := ih (fun c hc => hs c (by simp [hc]))
    simp [cstring, hb, ih2]

theorem loadU32_some_lt (be : Bool) (mem : List Byte) (p n : Nat)
    (h : loadU32 be mem p = some n) : n < 4294967296 ∧ p + 4 ≤ mem.length := by
  unfold loadU32 at h
  have hlen : (mem.drop p).length = mem.length - p := List.length_drop p mem
  match hd : mem.drop p, h with
  | b0 :: b1 :: b2 :: b3 :: tl, h =>
    simp [u32Head] at h
    rw [hd] at hlen
    simp at hlen
    exact ⟨h ▸ u32_lt be b0 b1 b2 b3, by omega⟩

theorem loadU32_of_le (be : Bool) (mem : List Byte) (p : Nat) (h : p + 4 ≤ mem.length) :
    ∃ n, loadU32 be mem p = some n := by
  unfold loadU32
  have hlen : (mem.drop p).length = mem.length - p := List.length_drop p mem
  match hd : mem.drop p with
  | b0 :: b1 :: b2 :: b3 :: tl => exact ⟨_, rfl⟩
  | [] => rw [hd] at hlen; simp at hlen; omega
  | [_] => rw [hd] at hlen; simp at hlen; omega
  | [_, _] => rw [hd] at hlen; simp at hlen; omega
  | [_, _, _] => rw [hd] at hlen; simp at hlen; omega

theorem loadHeader_some (be : Bool) (mem : List Byte) (off : Nat) (h : Header)
    (hh : loadHeader be mem off = some h) : h.len < 4294967296 ∧ off + 16 ≤ mem.length := by
  unfold loadHeader at hh
  split at hh
  · rename_i wd mask cookie len h1 h2 h3 h4
    have := loadU32_some_lt be mem _ _ h4
    simp at hh
    subst hh
    exact ⟨this.1, by have := this.2; omega⟩
  · simp at hh

theorem loadHeader_of_le (be : Bool) (mem : List Byte) (off : Nat)
    (h : off + 16 ≤ mem.length) : ∃ hd, loadHeader be mem off = some hd := by
  obtain ⟨a, ha⟩ := loadU32_of_le be mem off (by omega)
  obtain ⟨b, hb⟩ := loadU32_of_le be mem (off + 4) (by omega)
  obtain ⟨c, hc⟩ := loadU32_of_le be mem (off + 8) (by omega)
  obtain ⟨d, hd⟩ := loadU32_of_le be mem (off + 12) (by omega)
  exact ⟨⟨toInt32 a, b, c, d⟩, by simp [loadHeader, ha, hb, hc, hd]⟩

/-! ## Buffer sizing, error check and the empty read -/

theorem push_ne_osError (s : Step) (r : Result) (e : Int) (h : r ≠ .osError e) :
    r.push s ≠ .osError e := by
  cases r <;> simp_all [Result.push]

theorem decodeLoop_ne_osError (t : Target) (mem : List Byte) (len : Nat) (e : Int) :
    ∀ fuel off, decodeLoop t mem len fuel off ≠ .osError e := by
  intro fuel
  induction fuel with
  | zero => intro off; unfold decodeLoop; split <;> simp
  | succ n ih =>
    intro off
    unfold decodeLoop
    split
    · split
      · simp
      · exact push_ne_osError _ _ _ (ih _)
    · simp

theorem decode_events_ne_osError (t : Target) (mem : List Byte) (len e : Int) :
    decode_events t mem len ≠ .osError e := by
  unfold decode_events
  split
  · simp
  · exact decodeLoop_ne_osError t mem _ e _ _

/-- Supporting fact for C7: a negative cap inside the range of a 32-bit `int` is stored as a
value of at least `2^31`, which never clamps, so the size is the one computed without cap. -/
theorem buf_size_negative_int32 (P n : Int) (hP : P < 2147483648) (hP0 : 0 ≤ P)
    (hn : -2147483648 ≤ n) (hneg : n < 0) :
    buf_size P (parse_I n) = buf_size P 0 := by
  have hm : 2147483648 ≤ parse_I n := by
    unfold parse_I UINT_MOD
    omega
  generalize parse_I n = m at hm
  unfold buf_size UINT_MOD sizeof_inotify_event NAME_MAX
  simp only []
  split_ifs <;> omega

/-- Claim C7 evaluated on the code: the negative cap `-4294967291` is stored in the
`unsigned int` as 5 (the test `max_bytes < 0` can never hold for it), so with 100 bytes
pending the size passed to `read` is 5, whereas without cap it is 100; and with nothing
pending the size is 5 instead of 2720. With one 32-byte event pending, the call with that
cap ends in an OS error (the kernel rejects the 5-byte buffer), the call without cap
returns the event. -/
theorem buf_size_negative_cap_clamps :
    parse_I (-4294967291) = 5 ∧
    buf_size 100 (parsed_max_bytes (some (-4294967291))) = 5 ∧
    buf_size 100 (parsed_max_bytes (some 0)) = 100 ∧
    buf_size 0 (parsed_max_bytes (some (-4294967291))) = 5 ∧
    buf_size 0 (parsed_max_bytes (some 0)) = 2720 ∧
    read_events linux (some (-4294967291)) 32 pendingCreate = .osError 22 ∧
    read_events linux (some 0) 32 pendingCreate
      = .ok [⟨-1, 256, 0, 16, some [97, 46, 116, 120, 116]⟩]
          (List.range' 0 16 ++ List.range' 16 6) := by
  decide

/-- Claim C3: `read_events` ends in an OS error exactly when `read` returned -1 with an
`errno` that is neither `EAGAIN` nor `EWOULDBLOCK` (the error then carries that `errno`);
when `read` returned -1 with `EAGAIN` or `EWOULDBLOCK` the call succeeds with an empty list
of events. -/
theorem read_events_osError_iff (t : Target) (arg : Option Int) (P : Int)
    (sysread : Nat → ReadOutcome) :
    (∀ e, read_events t arg P sysread = .osError e ↔
      ((sysread (buf_size P (parsed_max_bytes arg))).len = -1 ∧
       (sysread (buf_size P (parsed_max_bytes arg))).errno ≠ t.EAGAIN ∧
       (sysread (buf_size P (parsed_max_bytes arg))).errno ≠ t.EWOULDBLOCK ∧
       e = (sysread (buf_size P (parsed_max_bytes arg))).errno)) ∧
    ((sysread (buf_size P (parsed_max_bytes arg))).len = -1 →
      ((sysread (buf_size P (parsed_max_bytes arg))).errno = t.EAGAIN ∨
       (sysread (buf_size P (parsed_max_bytes arg))).errno = t.EWOULDBLOCK) →
      read_events t arg P sysread = .ok [] []) := by
  generalize hr : sysread (buf_size P (parsed_max_bytes arg)) = r
  constructor
  · intro e
    unfold read_events
    simp only [hr]
    constructor
    · intro h
      split at h
      · rename_i hc
        simp at h
        exact ⟨hc.1, hc.2.1, hc.2.2, h.symm⟩
      · exact absurd h (decode_events_ne_osError t r.mem r.len e)
    · rintro ⟨h1, h2, h3, h4⟩
      rw [if_pos ⟨h1, h2, h3⟩, h4]
  · intro h1 h2
    unfold read_events
    simp only [hr]
    have hn : ¬ (r.len = -1 ∧ r.errno ≠ t.EAGAIN ∧ r.errno ≠ t.EWOULDBLOCK) := by
      rintro ⟨_, h3, h4⟩
      rcases h2 with h2 | h2
      · exact h3 h2
      · exact h4 h2
    rw [if_neg hn]
    unfold decode_events
    rw [if_pos (by omega)]

/-- Instance of C3 on a platform where `EAGAIN` is 11 and `EWOULDBLOCK` is 246: a `read`
that fails with `errno = 246` gives the empty list. -/
theorem read_events_osError_iff_witness :
    read_events bigTarget none 0 (fun _ => ⟨-1, 246, []⟩) = .ok [] [] :=
  (read_events_osError_iff bigTarget none 0 (fun _ => ⟨-1, 246, []⟩)).2 (by decide)
    (Or.inr (by decide))

/-- Claim C4: decoding with a byte count `len ≤ 0` gives the empty list of events, for every
content of the buffer, and loads no byte of it; in particular a `read` that returned 0 makes
`read_events` return the empty list whatever `errno` holds. -/
theorem decode_events_nonpos (t : Target) :
    (∀ (mem : List Byte) (len : Int), len ≤ 0 → decode_events t mem len = .ok [] []) ∧
    (∀ (arg : Option Int) (P : Int) (sysread : Nat → ReadOutcome),
      (sysread (buf_size P (parsed_max_bytes arg))).len = 0 →
      read_events t arg P sysread = .ok [] []) := by
  constructor
  · intro mem len h
    unfold decode_events
    rw [if_pos h]
  · intro arg P sysread h
    unfold read_events
    simp only [h]
    rw [if_neg (by simp)]
    unfold decode_events
    rw [if_pos (le_refl _)]

/-- Instance of C4: a read of 0 bytes into a buffer that happens to hold a header. -/
theorem decode_events_nonpos_witness :
    decode_events linux [1, 0, 0, 0, 0, 1, 0, 0, 0, 0, 0, 0, 0, 0, 0, 0] 0 = .ok [] [] :=
  (decode_events_nonpos linux).1 [1, 0, 0, 0, 0, 1, 0, 0, 0, 0, 0, 0, 0, 0, 0, 0] 0 (by decide)

/-! ## One iteration of the decode loop -/

theorem decodeOne_of_len_zero (t : Target) (mem : List Byte) (off : Nat) (h : Header)
    (hh : loadHeader t.bigEndian mem off = some h) (h0 : h.len = 0) :
    decodeOne t mem off
      = some ⟨⟨h.wd, h.mask, h.cookie, 0, some []⟩, List.range' off 16, off + 16⟩ := by
  unfold decodeOne
  simp [hh, h0, sizeof_inotify_event]

theorem decodeOne_of_cstring (t : Target) (mem : List Byte) (off : Nat) (h : Header)
    (s : List Byte) (hh : loadHeader t.bigEndian mem off = some h) (h0 : h.len ≠ 0)
    (hs : cstring (mem.drop (off + 16)) = some s) :
    decodeOne t mem off
      = some ⟨⟨h.wd, h.mask, h.cookie, h.len, if t.utf8 s then some s else none⟩,
              List.range' off 16 ++ List.range' (off + 16) (s.length + 1),
              off + (16 + h.len)⟩ := by
  unfold decodeOne
  simp [hh, h0, hs, sizeof_inotify_event]

theorem decodeOne_next (t : Target) (mem : List Byte) (off : Nat) (s : Step)
    (h : decodeOne t mem off = some s) :
    s.next = off + (16 + s.event.len) ∧ s.event.len < 4294967296 := by
  unfold decodeOne at h
  split at h
  · simp at h
  · rename_i hd hh
    have hlt := (loadHeader_some _ _ _ _ hh).1
    split at h
    · split at h
      · simp at h
      · simp at h
        subst h
        exact ⟨rfl, hlt⟩
    · simp at h
      subst h
      exact ⟨rfl, hlt⟩

/-- Claim C6: a record whose header has `name_length = 0` decodes to an event whose name is
present and is the empty string and whose `len` field is 0, whatever bytes follow the header
(only the 16 header bytes are loaded); this event is the one the loop puts in the list. -/
theorem decodeOne_no_name (t : Target) (mem : List Byte) (off : Nat) (h : Header)
    (hh : loadHeader t.bigEndian mem off = some h) (h0 : h.len = 0) :
    decodeOne t mem off
      = some ⟨⟨h.wd, h.mask, h.cookie, 0, some []⟩, List.range' off 16, off + 16⟩ ∧
    ∀ len fuel, off < len →
      decodeLoop t mem len (fuel + 1) off
        = (decodeLoop t mem len fuel (off + 16)).push
            ⟨⟨h.wd, h.mask, h.cookie, 0, some []⟩, List.range' off 16, off + 16⟩ := by
  have h1 := decodeOne_of_len_zero t mem off h hh h0
  refine ⟨h1, ?_⟩
  intro len fuel hlt
  rw [decodeLoop, if_pos hlt, h1]

/-- Instance of C6: a header with `name_length = 0` followed by bytes that are not text. -/
theorem decodeOne_no_name_witness :
    decodeOne linux [3, 0, 0, 0, 0, 4, 0, 0, 0, 0, 0, 0, 0, 0, 0, 0, 255, 254] 0
      = some ⟨⟨3, 1024, 0, 0, some []⟩, List.range' 0 16, 16⟩ :=
  (decodeOne_no_name linux [3, 0, 0, 0, 0, 4, 0, 0, 0, 0, 0, 0, 0, 0, 0, 0, 255, 254] 0
    ⟨3, 1024, 0, 0⟩ (by decide) rfl).1

/-- Claim C5: for a record whose header has `name_length = k > 0` and whose `k`-byte name
field is a string `s` of `m < k` non-NUL bytes of valid text, a NUL, and arbitrary bytes
`pad` up to `k`, the decoded name is exactly `s`: the bytes after the first terminator (and
anything after the field) do not influence it. The `len` field is `k` and the next record
is looked for `16 + k` bytes further. -/
theorem decodeOne_name_until_nul (t : Target) (mem : List Byte) (off : Nat) (h : Header)
    (s pad : List Byte) (hh : loadHeader t.bigEndian mem off = some h) (hk : 0 < h.len)
    (hfield : (mem.drop (off + 16)).take h.len = s ++ (0 : Byte) :: pad)
    (hs : ∀ b ∈ s, b ≠ 0) (hv : t.utf8 s = true) :
    decodeOne t mem off
      = some ⟨⟨h.wd, h.mask, h.cookie, h.len, some s⟩,
              List.range' off 16 ++ List.range' (off + 16) (s.length + 1),
              off + (16 + h.len)⟩ := by
  have hsplit : mem.drop (off + 16)
      = s ++ (0 : Byte) :: (pad ++ (mem.drop (off + 16)).drop h.len) := by
    conv_lhs => rw [← List.take_append_drop h.len (mem.drop (off + 16)), hfield]
    simp
  have hc : cstring (mem.drop (off + 16)) = some s := by
    rw [hsplit]
    exact cstring_append s _ hs
  rw [decodeOne_of_cstring t mem off h s hh (by omega) hc, hv]
  rfl

/-- Instance of C5: `name_length = 8`, field `"ab"`, NUL, then five non-zero filling bytes. -/
theorem decodeOne_name_until_nul_witness :
    decodeOne linux
        [7, 0, 0, 0, 0, 1, 0, 0, 0, 0, 0, 0, 8, 0, 0, 0, 97, 98, 0, 255, 99, 0, 100, 101] 0
      = some ⟨⟨7, 256, 0, 8, some [97, 98]⟩,
              List.range' 0 16 ++ List.range' (0 + 16) (([97, 98] : List Byte).length + 1),
              0 + (16 + 8)⟩ :=
  decodeOne_name_until_nul linux
    [7, 0, 0, 0, 0, 1, 0, 0, 0, 0, 0, 0, 8, 0, 0, 0, 97, 98, 0, 255, 99, 0, 100, 101] 0
    ⟨7, 256, 0, 8⟩ [97, 98] [255, 99, 0, 100, 101] (by decide) (by decide) (by decide)
    (by simp) (by decide)

/-! ## Decoding of encoded records -/

theorem loadU32_at (be : Bool) (pre : List Byte) (n : Nat) (rest : List Byte)
    (hn : n < 4294967296) :
    loadU32 be (pre ++ (encU32 be n ++ rest)) pre.length = some n := by
  unfold loadU32
  rw [List.drop_left]
  exact u32Head_encU32 be n rest hn

theorem Rec.encode_length (be : Bool) (r : Rec) (hw : r.Wf) :
    (r.encode be).length = 16 + r.name_length := by
  simp only [Rec.encode, List.length_append, encU32_length, hw.field_len]
  omega

theorem loadHeader_encode (be : Bool) (pre rest : List Byte) (r : Rec) (hw : r.Wf) :
    loadHeader be (pre ++ (r.encode be ++ rest)) pre.length
      = some ⟨r.wd, r.mask, r.cookie, r.name_length⟩ := by
  have h1 := loadU32_at be pre (r.wd % 4294967296).toNat
    (encU32 be r.mask ++ (encU32 be r.cookie ++ (encU32 be r.name_length
      ++ (r.nameField ++ rest)))) (wrap_lt r.wd)
  have h2 := loadU32_at be (pre ++ encU32 be (r.wd % 4294967296).toNat) r.mask
    (encU32 be r.cookie ++ (encU32 be r.name_length ++ (r.nameField ++ rest))) hw.mask_lt
  have h3 := loadU32_at be
    (pre ++ (encU32 be (r.wd % 4294967296).toNat ++ encU32 be r.mask)) r.cookie
    (encU32 be r.name_length ++ (r.nameField ++ rest)) hw.cookie_lt
  have h4 := loadU32_at be
    (pre ++ (encU32 be (r.wd % 4294967296).toNat ++ (encU32 be r.mask ++ encU32 be r.cookie)))
    r.name_length (r.nameField ++ rest) hw.len_lt
  simp only [List.length_append, encU32_length, List.append_assoc] at h2 h3 h4
  unfold loadHeader
  simp only [Rec.encode, List.append_assoc]
  rw [h1, h2, h3, h4]
  simp only [toInt32_wrap r.wd hw.wd_lo hw.wd_hi]

theorem drop_encode (be : Bool) (pre rest : List Byte) (r : Rec) :
    (pre ++ (r.encode be ++ rest)).drop (pre.length + 16) = r.nameField ++ rest := by
  have h : pre ++ (r.encode be ++ rest)
      = (pre ++ (encU32 be (r.wd % 4294967296).toNat ++ (encU32 be r.mask
          ++ (encU32 be r.cookie ++ encU32 be r.name_length)))) ++ (r.nameField ++ rest) := by
    simp only [Rec.encode, List.append_assoc]
  rw [h]
  exact List.drop_left' (by simp only [List.length_append, encU32_length])

theorem decodeOne_encode (t : Target) (pre rest : List Byte) (r : Rec) (hw : r.Wf) :
    ∃ reads, decodeOne t (pre ++ (r.encode t.bigEndian ++ rest)) pre.length
        = some ⟨r.toEvent t, reads, pre.length + (r.encode t.bigEndian).length⟩ ∧
      ∀ i ∈ reads, i < pre.length + (r.encode t.bigEndian).length := by
  have hh := loadHeader_encode t.bigEndian pre rest r hw
  rw [Rec.encode_length _ r hw]
  by_cases h0 : r.name_length = 0
  · refine ⟨List.range' pre.length 16, ?_, ?_⟩
    · rw [decodeOne_of_len_zero t _ _ _ hh h0]
      simp [Rec.toEvent, h0]
    · intro i hi
      simp only [List.mem_range'_1] at hi
      omega
  · have hc : cstring ((pre ++ (r.encode t.bigEndian ++ rest)).drop (pre.length + 16))
        = some r.name := by
      rw [drop_encode]
      simp only [Rec.nameField, if_neg h0, List.append_assoc, List.cons_append]
      exact cstring_append r.name _ hw.no_nul
    refine ⟨List.range' pre.length 16
      ++ List.range' (pre.length + 16) (r.name.length + 1), ?_, ?_⟩
    · rw [decodeOne_of_cstring t _ _ _ r.name hh h0 hc]
      simp [Rec.toEvent, h0]
    · intro i hi
      have hl := hw.field_len
      simp only [Rec.nameField, if_neg h0, List.length_append, List.length_cons] at hl
      simp only [List.mem_append, List.mem_range'_1] at hi
      omega

theorem push_ok (s : Step) (evs : List ParsedEvent) (rds : List Nat) :
    (Result.ok evs rds).push s = .ok (s.event :: evs) (s.reads ++ rds) := rfl

theorem decodeLoop_of_ge (t : Target) (mem : List Byte) (len fuel off : Nat)
    (h : len ≤ off) : decodeLoop t mem len fuel off = .ok [] [] := by
  cases fuel <;> simp [decodeLoop, Nat.not_lt.mpr h]

theorem decodeLoop_encodeAll (t : Target) (rest : List Byte) (rs : List Rec) :
    ∀ (pre mem : List Byte) (len fuel : Nat), (∀ r ∈ rs, r.Wf) → rs.length ≤ fuel →
      mem = pre ++ (encodeAll t.bigEndian rs ++ rest) →
      len = pre.length + (encodeAll t.bigEndian rs).length →
      ∃ reads, decodeLoop t mem len fuel pre.length = .ok (rs.map (Rec.toEvent t)) reads ∧
        ∀ i ∈ reads, i < len := by
  induction rs with
  | nil =>
    intro pre mem len fuel _ _ _ hlen
    refine ⟨[], ?_, by simp⟩
    simp only [encodeAll, List.length_nil, Nat.add_zero] at hlen
    rw [decodeLoop_of_ge t mem len fuel _ (by omega)]
    rfl
  | cons r rs ih =>
    intro pre mem len fuel hwf hfuel hmem hlen
    have hw : r.Wf := hwf r (by simp)
    obtain ⟨fuel, rfl⟩ : ∃ f, fuel = f + 1 := ⟨fuel - 1, by simp at hfuel; omega⟩
    have henc := Rec.encode_length t.bigEndian r hw
    simp only [encodeAll, List.length_append] at hlen
    simp only [encodeAll, List.append_assoc] at hmem
    obtain ⟨rd1, h1, hb1⟩ := decodeOne_encode t pre (encodeAll t.bigEndian rs ++ rest) r hw
    rw [← hmem] at h1
    obtain ⟨rd2, h2, hb2⟩ := ih (pre ++ r.encode t.bigEndian) mem len fuel
      (fun x hx => hwf x (by simp [hx])) (by simp at hfuel; omega)
      (by rw [hmem]; simp only [List.append_assoc])
      (by rw [hlen, List.length_append]; omega)
    rw [List.length_append] at h2
    refine ⟨rd1 ++ rd2, ?_, ?_⟩
    · rw [decodeLoop, if_pos (by omega), h1]
      simp only [h2, push_ok, List.map_cons]
    · intro i hi
      rcases List.mem_append.mp hi with hi | hi
      · have := hb1 i hi
        omega
      · exact hb2 i hi

theorem length_le_encodeAll (be : Bool) (rs : List Rec) (hwf : ∀ r ∈ rs, r.Wf) :
    rs.length ≤ (encodeAll be rs).length := by
  induction rs with
  | nil => simp
  | cons r rs ih =>
    have h1 := Rec.encode_length be r (hwf r (by simp))
    have h2 := ih (fun x hx => hwf x (by simp [hx]))
    simp only [encodeAll, List.length_append, List.length_cons]
    omega

theorem decode_events_natCast (t : Target) (mem : List Byte) (n : Nat) :
    decode_events t mem (n : Int) = decodeLoop t mem n n 0 := by
  unfold decode_events
  split
  · have h0 : n = 0 := by omega
    subst h0
    rfl
  · simp

theorem Rec.toEvent_of_valid (t : Target) (r : Rec) (hw : r.Wf)
    (hv : r.name_length ≠ 0 → t.utf8 r.name = true) :
    r.toEvent t = ⟨r.wd, r.mask, r.cookie, r.name_length, some r.name⟩ := by
  unfold Rec.toEvent
  by_cases h0 : r.name_length = 0
  · simp [h0, hw.empty_name h0]
  · simp [h0, hv h0]

/-- Claim C1: for every list of `N` well-formed records (header values in range, name valid
text without NUL, name field of `name_length` bytes holding the name, its terminator and any
filling) encoded and concatenated into a buffer of `len` bytes, followed by arbitrary memory,
the decode loop yields exactly the `N` records in order with `wd`, `mask`, `cookie`, `len`
and `name` equal to the source values, and every byte it loads is at an offset below `len`. -/
theorem decode_encodeAll (t : Target) (rs : List Rec) (rest : List Byte)
    (hwf : ∀ r ∈ rs, r.Wf) (hv : ∀ r ∈ rs, r.name_length ≠ 0 → t.utf8 r.name = true) :
    ∃ reads,
      decodeLoop t (encodeAll t.bigEndian rs ++ rest) (encodeAll t.bigEndian rs).length
          (encodeAll t.bigEndian rs).length 0
        = .ok (rs.map fun r => ⟨r.wd, r.mask, r.cookie, r.name_length, some r.name⟩) reads ∧
      decode_events t (encodeAll t.bigEndian rs ++ rest)
          ((encodeAll t.bigEndian rs).length : Int)
        = .ok (rs.map fun r => ⟨r.wd, r.mask, r.cookie, r.name_length, some r.name⟩) reads ∧
      (∀ i ∈ reads, i < (encodeAll t.bigEndian rs).length) := by
  obtain ⟨reads, h, hb⟩ := decodeLoop_encodeAll t rest rs []
    (encodeAll t.bigEndian rs ++ rest) (encodeAll t.bigEndian rs).length
    (encodeAll t.bigEndian rs).length hwf (length_le_encodeAll _ rs hwf) rfl (by simp)
  have hmap : rs.map (Rec.toEvent t)
      = rs.map fun r => (⟨r.wd, r.mask, r.cookie, r.name_length, some r.name⟩ : ParsedEvent) :=
    List.map_congr_left (fun r hr => Rec.toEvent_of_valid t r (hwf r hr) (hv r hr))
  simp only [List.nil_append, List.length_nil] at h
  rw [hmap] at h
  exact ⟨reads, h, by rw [decode_events_natCast]; exact h, hb⟩

theorem sampleCreate_wf : sampleCreate.Wf :=
  ⟨by decide, by decide, by decide, by decide, by decide, by simp [sampleCreate], by decide,
    by decide⟩

theorem sampleSelf_wf : sampleSelf.Wf :=
  ⟨by decide, by decide, by decide, by decide, by decide, by simp [sampleSelf], by decide,
    by decide⟩

theorem sampleRecs_wf : ∀ r ∈ [sampleCreate, sampleSelf, sampleCreate], r.Wf := by
  intro r hr
  simp only [List.mem_cons, List.mem_singleton, List.not_mem_nil, or_false] at hr
  rcases hr with rfl | rfl | rfl
  · exact sampleCreate_wf
  · exact sampleSelf_wf
  · exact sampleCreate_wf

theorem sampleRecs_valid :
    ∀ r ∈ [sampleCreate, sampleSelf, sampleCreate], r.name_length ≠ 0 →
      linux.utf8 r.name = true := by
  intro r hr _
  simp only [List.mem_cons, List.mem_singleton, List.not_mem_nil, or_false] at hr
  rcases hr with rfl | rfl | rfl <;> decide

/-- Instance of C1: three records (a create event named `a.txt`, an event without name, the
create event again) followed by two foreign bytes. -/
theorem decode_encodeAll_witness :
    (∀ r ∈ [sampleCreate, sampleSelf, sampleCreate], r.Wf) ∧
    ∃ reads,
      decodeLoop linux (encodeAll linux.bigEndian [sampleCreate, sampleSelf, sampleCreate]
            ++ [255, 255])
          (encodeAll linux.bigEndian [sampleCreate, sampleSelf, sampleCreate]).length
          (encodeAll linux.bigEndian [sampleCreate, sampleSelf, sampleCreate]).length 0
        = .ok ([sampleCreate, sampleSelf, sampleCreate].map
            fun r => ⟨r.wd, r.mask, r.cookie, r.name_length, some r.name⟩) reads ∧
      decode_events linux (encodeAll linux.bigEndian [sampleCreate, sampleSelf, sampleCreate]
            ++ [255, 255])
          ((encodeAll linux.bigEndian [sampleCreate, sampleSelf, sampleCreate]).length : Int)
        = .ok ([sampleCreate, sampleSelf, sampleCreate].map
            fun r => ⟨r.wd, r.mask, r.cookie, r.name_length, some r.name⟩) reads ∧
      (∀ i ∈ reads,
        i < (encodeAll linux.bigEndian [sampleCreate, sampleSelf, sampleCreate]).length) :=
  ⟨sampleRecs_wf,
    decode_encodeAll linux [sampleCreate, sampleSelf, sampleCreate] [255, 255] sampleRecs_wf
      sampleRecs_valid⟩

/-- Supporting fact for C9, on the body of the C function: a `read` that returned 50 bytes
holding a record whose name field starts with the byte `0xFF` (no valid text) and then a
record named `a.txt`. The body has no error exit for the failed conversion: it decodes the
second record too and reaches `return event_list` with an empty name slot in the first
event, so with the error indicator set. -/
theorem read_events_invalid_name_returns_list :
    linux.utf8 [255] = false ∧
    read_events linux none 50 (fun _ => ⟨50, 0, badNameBuffer⟩)
      = .ok [⟨1, 256, 0, 2, none⟩, ⟨-1, 256, 0, 16, some [97, 46, 116, 120, 116]⟩]
          (List.range' 0 16 ++ List.range' 16 2 ++ (List.range' 18 16 ++ List.range' 34 6)) := by
  decide

/-! ## Termination of the decode loop -/

theorem push_eq_ok (s : Step) (r : Result) (evs : List ParsedEvent) (rds : List Nat)
    (h : r.push s = .ok evs rds) :
    ∃ evs1 rds1, r = .ok evs1 rds1 ∧ evs = s.event :: evs1 ∧ rds = s.reads ++ rds1 := by
  cases r with
  | ok evs1 rds1 =>
    simp only [Result.push, Result.ok.injEq] at h
    exact ⟨evs1, rds1, rfl, h.1.symm, h.2.symm⟩
  | osError e => simp [Result.push] at h
  | fault => simp [Result.push] at h
  | outOfFuel => simp [Result.push] at h

theorem push_ne_outOfFuel (s : Step) (r : Result) (h : r.push s ≠ .outOfFuel) :
    r ≠ .outOfFuel := by
  intro hr
  rw [hr] at h
  exact h rfl

theorem decodeLoop_succ (t : Target) (mem : List Byte) (len n off : Nat) :
    decodeLoop t mem len (n + 1) off
      = if off < len then
          match decodeOne t mem off with
          | none => .fault
          | some s => (decodeLoop t mem len n s.next).push s
        else .ok [] [] := by
  rw [decodeLoop]

theorem decodeLoop_more_fuel (t : Target) (mem : List Byte) (len : Nat) :
    ∀ n off k, decodeLoop t mem len n off ≠ .outOfFuel →
      decodeLoop t mem len (n + k) off = decodeLoop t mem len n off := by
  intro n
  induction n with
  | zero =>
    intro off k h
    by_cases hlt : off < len
    · simp [decodeLoop, hlt] at h
    · rw [decodeLoop_of_ge t mem len _ off (by omega), decodeLoop_of_ge t mem len _ off (by omega)]
  | succ n ih =>
    intro off k h
    have hk : n + 1 + k = (n + k) + 1 := by omega
    rw [hk, decodeLoop_succ t mem len (n + k), decodeLoop_succ t mem len n]
    rw [decodeLoop_succ] at h
    by_cases hlt : off < len
    · simp only [if_pos hlt] at h ⊢
      cases hd : decodeOne t mem off with
      | none => rfl
      | some s =>
        rw [hd] at h
        simp only []
        rw [ih s.next k (push_ne_outOfFuel s _ h)]
    · simp only [if_neg hlt]

theorem decodeLoop_enough_fuel (t : Target) (mem : List Byte) (len : Nat) :
    ∀ n off, len ≤ off + 16 * n → decodeLoop t mem len n off ≠ .outOfFuel := by
  intro n
  induction n with
  | zero =>
    intro off h
    rw [decodeLoop_of_ge t mem len _ off (by omega)]
    simp
  | succ n ih =>
    intro off h
    rw [decodeLoop]
    by_cases hlt : off < len
    · rw [if_pos hlt]
      cases hd : decodeOne t mem off with
      | none => simp
      | some s =>
        have hn := (decodeOne_next t mem off s hd).1
        have := ih s.next (by omega)
        simp only []
        cases hr : decodeLoop t mem len n s.next with
        | outOfFuel => exact absurd hr this
        | ok a b => simp [Result.push]
        | fault => simp [Result.push]
        | osError e => simp [Result.push]
    · rw [if_neg hlt]
      simp

theorem decodeLoop_fuel_irrelevant (t : Target) (mem : List Byte) (len : Nat) (n m off : Nat)
    (hn : len ≤ off + 16 * n) (hm : len ≤ off + 16 * m) :
    decodeLoop t mem len n off = decodeLoop t mem len m off := by
  rcases Nat.le_total n m with h | h
  · obtain ⟨k, rfl⟩ := Nat.exists_eq_add_of_le h
    exact (decodeLoop_more_fuel t mem len n off k (decodeLoop_enough_fuel t mem len n off hn)).symm
  · obtain ⟨k, rfl⟩ := Nat.exists_eq_add_of_le h
    exact decodeLoop_more_fuel t mem len m off k (decodeLoop_enough_fuel t mem len m off hm)

theorem decodeLoop_ok_stable (t : Target) (mem : List Byte) (len n m off : Nat)
    (evs : List ParsedEvent) (rds : List Nat)
    (h : decodeLoop t mem len n off = .ok evs rds) (hm : len ≤ off + 16 * m) :
    decodeLoop t mem len m off = .ok evs rds := by
  rcases Nat.le_total n m with hle | hle
  · obtain ⟨k, rfl⟩ := Nat.exists_eq_add_of_le hle
    rw [decodeLoop_more_fuel t mem len n off k (by rw [h]; simp), h]
  · obtain ⟨k, rfl⟩ := Nat.exists_eq_add_of_le hle
    rw [← decodeLoop_more_fuel t mem len m off k (decodeLoop_enough_fuel t mem len m off hm), h]

theorem decodeLoop_count (t : Target) (mem : List Byte) (len : Nat) :
    ∀ n off evs rds, decodeLoop t mem len n off = .ok evs rds →
      16 * evs.length ≤ (len - off) + 15 ∧ (off < len → 1 ≤ evs.length) := by
  intro n
  induction n with
  | zero =>
    intro off evs rds h
    by_cases hlt : off < len
    · simp [decodeLoop, hlt] at h
    · simp only [decodeLoop, if_neg hlt, Result.ok.injEq] at h
      rw [← h.1]
      exact ⟨by simp, fun hc => absurd hc hlt⟩
  | succ n ih =>
    intro off evs rds h
    rw [decodeLoop] at h
    by_cases hlt : off < len
    · rw [if_pos hlt] at h
      cases hd : decodeOne t mem off with
      | none => rw [hd] at h; simp at h
      | some s =>
        rw [hd] at h
        simp only [] at h
        obtain ⟨evs1, rds1, h1, he, _⟩ := push_eq_ok s _ evs rds h
        have hn := (decodeOne_next t mem off s hd).1
        have := (ih s.next evs1 rds1 h1).1
        subst he
        simp only [List.length_cons]
        exact ⟨by omega, fun _ => by omega⟩
    · simp only [if_neg hlt, Result.ok.injEq] at h
      rw [← h.1]
      exact ⟨by simp, fun hc => absurd hc hlt⟩

theorem cstring_of_nul (l : List Byte) :
    ∀ j, l[j]? = some (0 : Byte) → ∃ s, cstring l = some s ∧ s.length ≤ j := by
  induction l with
  | nil => intro j h; simp at h
  | cons b l ih =>
    intro j h
    by_cases hb : b = 0
    · exact ⟨[], by simp [cstring, hb], by simp⟩
    · cases j with
      | zero => simp at h; exact absurd h hb
      | succ j =>
        simp only [List.getElem?_cons_succ] at h
        obtain ⟨s, hs, hl⟩ := ih j h
        exact ⟨b :: s, by simp [cstring, hb, hs], by simp; omega⟩

theorem decodeOne_of_nul (t : Target) (mem : List Byte) (off z : Nat) (hz : off + 16 ≤ z)
    (h : mem[z]? = some (0 : Byte)) : ∃ s, decodeOne t mem off = some s := by
  have hzlt : z < mem.length := by
    by_contra hc
    rw [List.getElem?_eq_none (by omega)] at h
    simp at h
  obtain ⟨hd, hh⟩ := loadHeader_of_le t.bigEndian mem off (by omega)
  by_cases h0 : hd.len = 0
  · exact ⟨_, decodeOne_of_len_zero t mem off hd hh h0⟩
  · have hj : (mem.drop (off + 16))[z - (off + 16)]? = some (0 : Byte) := by
      rw [List.getElem?_drop]
      rw [show off + 16 + (z - (off + 16)) = z by omega]
      exact h
    obtain ⟨s, hs, _⟩ := cstring_of_nul _ _ hj
    exact ⟨_, decodeOne_of_cstring t mem off hd s hh h0 hs⟩

theorem decodeLoop_ok_of_nul (t : Target) (mem : List Byte) (len z : Nat) (hz : len + 15 ≤ z)
    (h : mem[z]? = some (0 : Byte)) :
    ∀ n off, len ≤ off + 16 * n → ∃ evs rds, decodeLoop t mem len n off = .ok evs rds := by
  intro n
  induction n with
  | zero =>
    intro off hle
    exact ⟨[], [], decodeLoop_of_ge t mem len _ off (by omega)⟩
  | succ n ih =>
    intro off hle
    by_cases hlt : off < len
    · obtain ⟨s, hs⟩ := decodeOne_of_nul t mem off z (by omega) h
      have hn := (decodeOne_next t mem off s hs).1
      obtain ⟨evs, rds, hr⟩ := ih s.next (by omega)
      refine ⟨s.event :: evs, s.reads ++ rds, ?_⟩
      rw [decodeLoop, if_pos hlt, hs]
      simp only [hr, push_ok]
    · exact ⟨[], [], decodeLoop_of_ge t mem len _ off (by omega)⟩

/-- Claim C10: for every memory content and every byte count `len > 0` the decode loop
terminates. Each iteration moves the offset forward by `16 + name_length ≥ 16` with
`name_length < 2^32`; the body is entered at least once; a budget of `⌈len / 16⌉` iterations
is never used up, and any larger budget gives the same outcome, which is the outcome of the
decode stage of `read_events`. Whenever the list is returned it holds between 1 and
`⌈len / 16⌉` events, and it is returned as soon as the addressable memory holds a NUL byte at
some offset `≥ len + 15` (no load can then leave the addressable bytes). -/
theorem decodeLoop_terminates (t : Target) (mem : List Byte) (len : Nat) (hlen : 0 < len) :
    (∀ off s, decodeOne t mem off = some s →
      s.next = off + (16 + s.event.len) ∧ off + 16 ≤ s.next ∧ s.event.len < 4294967296) ∧
    decodeLoop t mem len 0 0 = .outOfFuel ∧
    (∀ fuel, (len + 15) / 16 ≤ fuel →
      decodeLoop t mem len fuel 0 ≠ .outOfFuel ∧
      decodeLoop t mem len fuel 0 = decode_events t mem (len : Int)) ∧
    (∀ evs rds, decode_events t mem (len : Int) = .ok evs rds →
      1 ≤ evs.length ∧ evs.length ≤ (len + 15) / 16) ∧
    (∀ z, len + 15 ≤ z → mem[z]? = some (0 : Byte) →
      ∃ evs rds, decode_events t mem (len : Int) = .ok evs rds ∧
        1 ≤ evs.length ∧ evs.length ≤ (len + 15) / 16) := by
  have hcount : ∀ evs rds, decode_events t mem (len : Int) = .ok evs rds →
      1 ≤ evs.length ∧ evs.length ≤ (len + 15) / 16 := by
    intro evs rds h
    rw [decode_events_natCast] at h
    have hc := decodeLoop_count t mem len len 0 evs rds h
    exact ⟨hc.2 hlen, by have := hc.1; omega⟩
  refine ⟨?_, ?_, ?_, hcount, ?_⟩
  · intro off s h
    have hn := decodeOne_next t mem off s h
    exact ⟨hn.1, by omega, hn.2⟩
  · simp [decodeLoop, hlen]
  · intro fuel hf
    have h16 : len ≤ 0 + 16 * fuel := by omega
    refine ⟨decodeLoop_enough_fuel t mem len fuel 0 h16, ?_⟩
    rw [decode_events_natCast]
    exact decodeLoop_fuel_irrelevant t mem len fuel len 0 h16 (by omega)
  · intro z hz h0
    obtain ⟨evs, rds, h⟩ := decodeLoop_ok_of_nul t mem len z hz h0 len 0 (by omega)
    rw [← decode_events_natCast] at h
    exact ⟨evs, rds, h, hcount evs rds h⟩

/-- Instance of C10 on a 50-byte buffer: at most `⌈50 / 16⌉ = 4` events. -/
theorem decodeLoop_terminates_witness :
    0 < 50 ∧ ∀ evs rds, decode_events linux badNameBuffer ((50 : Nat) : Int) = .ok evs rds →
      1 ≤ evs.length ∧ evs.length ≤ (50 + 15) / 16 :=
  ⟨by decide, (decodeLoop_terminates linux badNameBuffer 50 (by decide)).2.2.2.1⟩

/-! ## Loads stay inside the bytes read, on buffers made of complete records -/

theorem decodeOne_framed (t : Target) (mem : List Byte) (off : Nat) (h : Header)
    (hh : loadHeader t.bigEndian mem off = some h)
    (hnul : h.len ≠ 0 → ∃ j, j < h.len ∧ mem[off + 16 + j]? = some (0 : Byte)) :
    ∃ s k, decodeOne t mem off = some s ∧ s.next = off + (16 + h.len) ∧ k ≤ h.len ∧
      s.reads = List.range' off 16 ++ List.range' (off + 16) k := by
  by_cases h0 : h.len = 0
  · exact ⟨_, 0, decodeOne_of_len_zero t mem off h hh h0, by simp [h0], by omega, by simp⟩
  · obtain ⟨j, hj, hz⟩ := hnul h0
    rw [← List.getElem?_drop] at hz
    obtain ⟨s, hs, hl⟩ := cstring_of_nul _ _ hz
    exact ⟨_, s.length + 1, decodeOne_of_cstring t mem off h s hh h0 hs, rfl, by omega, rfl⟩

theorem decodeLoop_framed (t : Target) (mem : List Byte) (len off : Nat)
    (hf : Framed t.bigEndian mem len off) :
    ∃ n evs rds, decodeLoop t mem len n off = .ok evs rds ∧ ∀ i ∈ rds, i < len := by
  induction hf with
  | done => exact ⟨0, [], [], decodeLoop_of_ge t mem len 0 len (le_refl _), by simp⟩
  | record off h hh hle hnul _ ih =>
    obtain ⟨n, evs, rds, hr, hb⟩ := ih
    obtain ⟨s, k, hs, hnext, hk, hreads⟩ := decodeOne_framed t mem off h hh hnul
    refine ⟨n + 1, s.event :: evs, s.reads ++ rds, ?_, ?_⟩
    · rw [decodeLoop_succ, if_pos (by omega), hs]
      simp only [hnext, hr, push_ok]
    · intro i hi
      rcases List.mem_append.mp hi with hi | hi
      · rw [hreads] at hi
        simp only [List.mem_append, List.mem_range'_1] at hi
        omega
      · exact hb i hi

/-- Counterexample to C8 as stated. With 8 bytes read (half a header) the loop loads the
header bytes 0..15, so bytes at offsets 8..15 beyond `len = 8`; and on a 33-byte buffer whose
first record has a 1-byte name field without terminator, the name scan loads offsets 16, 17
and 18, leaving the name field `[16, 17)`, and the decoded name takes in a byte of the next
header. -/
theorem decodeLoop_overread :
    (decode_events linux truncatedBuffer 8
        = .ok [⟨3, 1024, 0, 0, some []⟩] (List.range' 0 16) ∧
      ∃ i ∈ List.range' 0 16, 8 ≤ i) ∧
    (decode_events linux unterminatedBuffer 33
        = .ok [⟨1, 256, 0, 1, some [97, 3]⟩, ⟨3, 1024, 0, 0, some []⟩]
            (List.range' 0 16 ++ List.range' 16 3 ++ List.range' 17 16) ∧
      ∃ i ∈ List.range' 16 3, 16 + 1 ≤ i) :=
  ⟨⟨by decide, 15, by decide, by decide⟩, ⟨by decide, 18, by decide, by decide⟩⟩

/-- Claim C8 as amended: when the `len` bytes read are tiled by complete records (every
header and name field inside the first `len` bytes, a NUL inside every non-empty name
field), the decode stage returns the list and every byte it loads is at an offset below
`len`; for each such record at `off` the loads are the header bytes `[off, off + 16)` and
name bytes `[off + 16, off + 16 + k)` with `k ≤ name_length`. -/
theorem decodeLoop_reads_within (t : Target) (mem : List Byte) (len : Nat)
    (hf : Framed t.bigEndian mem len 0) :
    (∃ evs rds, decode_events t mem (len : Int) = .ok evs rds ∧ ∀ i ∈ rds, i < len) ∧
    (∀ off h, loadHeader t.bigEndian mem off = some h → off + (16 + h.len) ≤ len →
      (h.len ≠ 0 → ∃ j, j < h.len ∧ mem[off + 16 + j]? = some (0 : Byte)) →
      ∃ s k, decodeOne t mem off = some s ∧ k ≤ h.len ∧
        s.reads = List.range' off 16 ++ List.range' (off + 16) k ∧
        ∀ i ∈ s.reads, off ≤ i ∧ i < len) := by
  constructor
  · obtain ⟨n, evs, rds, hr, hb⟩ := decodeLoop_framed t mem len 0 hf
    refine ⟨evs, rds, ?_, hb⟩
    rw [decode_events_natCast]
    exact decodeLoop_ok_stable t mem len n len 0 evs rds hr (by omega)
  · intro off h hh hle hnul
    obtain ⟨s, k, hs, _, hk, hreads⟩ := decodeOne_framed t mem off h hh hnul
    refine ⟨s, k, hs, hk, hreads, ?_⟩
    intro i hi
    rw [hreads] at hi
    simp only [List.mem_append, List.mem_range'_1] at hi
    omega

theorem badNameBuffer_framed : Framed linux.bigEndian badNameBuffer 50 0 :=
  Framed.record 0 ⟨1, 256, 0, 2⟩ (by decide) (by decide) (fun _ => ⟨1, by decide, by decide⟩)
    (Framed.record 18 ⟨-1, 256, 0, 16⟩ (by decide) (by decide)
      (fun _ => ⟨5, by decide, by decide⟩) Framed.done)

/-- Instance of amended C8: the 50-byte buffer of two complete records. -/
theorem decodeLoop_reads_within_witness :
    Framed linux.bigEndian badNameBuffer 50 0 ∧
    ∃ evs rds, decode_events linux badNameBuffer ((50 : Nat) : Int) = .ok evs rds ∧
      ∀ i ∈ rds, i < 50 :=
  ⟨badNameBuffer_framed, (decodeLoop_reads_within linux badNameBuffer 50 badNameBuffer_framed).1⟩

/-! ## Names that are not valid text -/

theorem decodeOne_name_none_iff (t : Target) (mem : List Byte) (off : Nat) (s : Step)
    (h : decodeOne t mem off = some s) :
    s.event.name = none ↔
      s.event.len ≠ 0 ∧
      ∃ bytes, cstring (mem.drop (off + 16)) = some bytes ∧ t.utf8 bytes = false := by
  unfold decodeOne at h
  split at h
  · simp at h
  · rename_i hd hh
    split at h
    · rename_i hlen
      split at h
      · simp at h
      · rename_i bytes hc
        simp only [Option.some.injEq] at h
        subst h
        simp only [sizeof_inotify_event] at hc
        cases hv : t.utf8 bytes
        · simp [hv, hlen, hc]
        · simp [hv, hc]
    · rename_i hlen
      simp only [Option.some.injEq] at h
      subst h
      simp at hlen
      simp [hlen]

/-- The two outcomes of the result check on sample reads: the buffer with the name `0xFF`
makes the call raise, the buffer holding only the record named `a.txt` makes it evaluate to
the list, and a failing `read` raises the OS error. -/
theorem call_read_events_samples :
    call_read_events linux none 50 (fun _ => ⟨50, 0, badNameBuffer⟩)
      = .raised (.systemError .unicodeDecodeError) ∧
    call_read_events linux none 32 pendingCreate
      = .returned [⟨-1, 256, 0, 16, some [97, 46, 116, 120, 116]⟩] ∧
    call_read_events linux (some 5) 32 pendingCreate = .raised (.osError 22) := by
  decide

end Inotify
